import Mathlib

/-!
Verification of the agent notebook
(`05-agents-with-langchain/agents_with_langchain.ipynb`).

Strings are modelled as `List Char`.  The Python helper
`extract_after_thinking` uses `re.search(r'</thinking>(.*)', text, re.DOTALL)`:
the leftmost match of the pattern starts at the first occurrence of the
literal `</thinking>`, the greedy group `(.*)` with `DOTALL` captures
everything strictly after it to the end of the string, and the result is
`.strip()`ped; if the marker does not occur, the raw text is returned
unmodified.
-/

namespace Agents

/-- `startsWithB pat s` is true when `pat` is an initial segment of `s`. -/
def startsWithB : List Char → List Char → Bool
  | [], _ => true
  | _ :: _, [] => false
  | p :: ps, c :: cs => p == c && startsWithB ps cs

/-- `endsWithB pat s` is true when `pat` is a final segment of `s`. -/
def endsWithB (pat s : List Char) : Bool :=
  startsWithB pat.reverse s.reverse

/-- Remainder of `s` strictly after the first occurrence of `pat`
(`none` when `pat` does not occur).  This is how Python's
`re.search(pat + r'(.*)', s, re.DOTALL).group(1)` behaves for a literal
pattern: `re.search` returns the leftmost match. -/
def dropAfterFirst (pat : List Char) : List Char → Option (List Char)
  | [] => if startsWithB pat [] then some [] else none
  | c :: rest =>
    if startsWithB pat (c :: rest) then some ((c :: rest).drop pat.length)
    else dropAfterFirst pat rest

/-- Number of positions of `s` at which `pat` occurs (occurrences may
overlap). -/
def countOcc (pat : List Char) : List Char → Nat
  | [] => if startsWithB pat [] then 1 else 0
  | c :: rest => (if startsWithB pat (c :: rest) then 1 else 0) + countOcc pat rest

/-- The characters removed by Python's `str.strip()` (the ASCII whitespace
characters; all text handled by the notebook is ASCII). -/
def isSpaceChar (c : Char) : Bool :=
  c == ' ' || c == '\t' || c == '\n' || c == '\r' || c == '\x0b' || c == '\x0c'

/-- Python's `str.strip()`: remove leading and trailing whitespace. -/
def stripChars (s : List Char) : List Char :=
  (((s.dropWhile isSpaceChar).reverse).dropWhile isSpaceChar).reverse

/-- The closing marker of the hidden-reasoning block, `"</thinking>"`. -/
def thinkClose : List Char := "</thinking>".data

/-- The opening marker of the hidden-reasoning block, `"<thinking>"`. -/
def thinkOpen : List Char := "<thinking>".data

/-- The notebook's `extract_after_thinking`:
`re.search(r'</thinking>(.*)', text, re.DOTALL)`; on a match, the captured
group (everything strictly after the first `</thinking>`) stripped of
surrounding whitespace; otherwise the raw text unmodified. -/
def extract_after_thinking (text : List Char) : List Char :=
  match dropAfterFirst thinkClose text with
  | some rest => stripChars rest
  | none => text

/-- The notebook's `calculate_total_cost` tool:
`return 350 * num_days`. -/
def calculate_total_cost (num_days : Int) : Int :=
  350 * num_days

/-- The literal text of `book_trip`'s f-string before `{start_date}`. -/
def bookTripHeader : List Char :=
  "Confirmed: The trip you have requested has been booked successfully.\n    Start Date: ".data

/-- The literal text of `book_trip`'s f-string between `{start_date}` and
`{end_date}`. -/
def bookTripEndLabel : List Char := "\n    End Date: ".data

/-- The literal text of `book_trip`'s f-string between `{end_date}` and
`{destination_city}`. -/
def bookTripDestLabel : List Char := "\n    Destination: ".data

/-- The literal text of `book_trip`'s f-string after `{destination_city}`. -/
def bookTripTail : List Char := "\n    ".data

/-- The notebook's `book_trip` tool: the f-string
`"Confirmed: The trip you have requested has been booked successfully.\n    Start Date: {start_date}\n    End Date: {end_date}\n    Destination: {destination_city}\n    "`. -/
def book_trip (start_date end_date destination_city : List Char) : List Char :=
  bookTripHeader ++ start_date ++ bookTripEndLabel ++ end_date
    ++ bookTripDestLabel ++ destination_city ++ bookTripTail

/-- Decoding configuration of the `ChatBedrockConverse` model object. -/
structure LlmConfig where
  model : List Char
  temperature : Nat
  top_p : Nat
  topK : Nat
  stopSequences : List (List Char)
  deriving DecidableEq

/-- The notebook's `llm = ChatBedrockConverse(...)` configuration:
`temperature=1`, `top_p=1`, `topK=1`,
`stopSequences=["\n\n<thinking>", "\n<thinking>", " <thinking>"]`. -/
def llm : LlmConfig :=
  { model := "us.amazon.nova-lite-v1:0".data
    temperature := 1
    top_p := 1
    topK := 1
    stopSequences :=
      ["\n\n<thinking>".data, "\n<thinking>".data, " <thinking>".data] }

/-- The notebook's `tools = [calculate_total_cost, book_trip]`, by name;
these are the tool schemas bound onto the model by `bind_tools` and by
`create_react_agent`. -/
def tools : List (List Char) :=
  ["calculate_total_cost".data, "book_trip".data]

/-- What one iteration of the notebook's event loop prints for one message. -/
inductive LoopOutput where
  | assistant (visible : List Char) : LoopOutput
  | assistantWithToolCalls (visible : List Char) (toolCalls : List (List Char)) : LoopOutput
  | toolMessages : LoopOutput
  | silent : LoopOutput
  deriving DecidableEq

/-- The notebook's main-loop branch on the last message: when
`response_metadata` carries a `stopReason`, the branch
`if stopReason == "end_turn"` extracts and prints the assistant answer, the
branch `elif stopReason == "tool_use"` extracts, prints the answer and the
tool calls, and any other `stopReason` matches neither branch (nothing is
printed); a message without a `stopReason` prints the tool messages. -/
def handleEvent (stopReason : Option (List Char)) (text : List Char)
    (toolCalls : List (List Char)) : LoopOutput :=
  match stopReason with
  | some r =>
    if r = "end_turn".data then .assistant (extract_after_thinking text)
    else if r = "tool_use".data then
      .assistantWithToolCalls (extract_after_thinking text) toolCalls
    else .silent
  | none => .toolMessages

/-- Modelled from the spec: the stop condition of one Model Adapter response
(`answered`, `tool_requested` with its calls, or `stopped_early`); the
repository delegates the response decoding to the external agent framework. -/
inductive ModelStop where
  | answered (text : List Char) : ModelStop
  | toolRequested (calls : List (List Char)) : ModelStop
  | stoppedEarly (text : List Char) : ModelStop

/-- Modelled from the spec: `terminal_reason` of a `TurnResult`, together
with the required guard failure `MaxToolIterationsExceeded`. -/
inductive TerminalReason where
  | answered : TerminalReason
  | maxToolIterationsExceeded : TerminalReason
  deriving DecidableEq

/-- Modelled from the spec: the `TurnResult` record (the fields the guard
claim needs). -/
structure TurnResult where
  visible_text : List Char
  terminal_reason : TerminalReason

/-- True when a model response requests further tool calls. -/
def isToolRequest : ModelStop → Bool
  | .toolRequested _ => true
  | _ => false

/-- Modelled from the spec: the Turn Orchestrator's tool round-trip loop with
its configurable maximum-iteration guard.  The repository delegates this loop
to the external `create_react_agent` framework, so the loop body is absent
from the sources; the spec requires a configurable maximum number of tool
round-trips, failing with `MaxToolIterationsExceeded` once exceeded.
`model k` is the model's response to the `k`-th round-trip; `fuel` is the
number of round-trips still allowed. -/
def runTurnAux (model : Nat → ModelStop) : Nat → Nat → TurnResult
  | 0, _ => { visible_text := [], terminal_reason := .maxToolIterationsExceeded }
  | fuel + 1, k =>
    match model k with
    | .answered text =>
        { visible_text := extract_after_thinking text, terminal_reason := .answered }
    | .stoppedEarly text =>
        { visible_text := extract_after_thinking text, terminal_reason := .answered }
    | .toolRequested _ => runTurnAux model fuel (k + 1)

/-- Modelled from the spec: run one user turn with at most `maxIter` tool
round-trips. -/
def runTurn (maxIter : Nat) (model : Nat → ModelStop) : TurnResult :=
  runTurnAux model maxIter 0

/-! ## Helper lemmas about occurrences and stripping -/

theorem startsWithB_self_append (p r : List Char) : startsWithB p (p ++ r) = true := by
  induction p with
  | nil => rfl
  | cons c cs ih => simp [startsWithB, ih]

theorem startsWithB_append_right {pat x : List Char} (w : List Char)
    (h : startsWithB pat x = true) : startsWithB pat (x ++ w) = true := by
  induction pat generalizing x with
  | nil => rfl
  | cons p ps ih =>
    cases x with
    | nil => simp [startsWithB] at h
    | cons c cs =>
      simp only [startsWithB, Bool.and_eq_true] at h
      simp only [List.cons_append, startsWithB, Bool.and_eq_true]
      exact ⟨h.1, ih h.2⟩

theorem eq_append_drop_of_startsWithB {pat s : List Char}
    (h : startsWithB pat s = true) : s = pat ++ s.drop pat.length := by
  induction pat generalizing s with
  | nil => simp
  | cons p ps ih =>
    cases s with
    | nil => simp [startsWithB] at h
    | cons c cs =>
      simp only [startsWithB, Bool.and_eq_true, beq_iff_eq] at h
      simp only [List.cons_append, List.length_cons, List.drop_succ_cons]
      rw [← h.1]
      exact congrArg (List.cons p) (ih h.2)

theorem dropAfterFirst_of_startsWithB {pat s : List Char}
    (h : startsWithB pat s = true) :
    dropAfterFirst pat s = some (s.drop pat.length) := by
  cases s with
  | nil =>
    rw [dropAfterFirst, if_pos h]
    simp
  | cons c cs => rw [dropAfterFirst, if_pos h]

theorem dropAfterFirst_of_first (pat pre post : List Char)
    (h : ∀ i < pre.length, startsWithB pat ((pre ++ (pat ++ post)).drop i) = false) :
    dropAfterFirst pat (pre ++ (pat ++ post)) = some post := by
  induction pre with
  | nil =>
    rw [List.nil_append,
      dropAfterFirst_of_startsWithB (startsWithB_self_append pat post),
      List.drop_left pat post]
  | cons c cs ih =>
    have h0 := h 0 (Nat.succ_pos _)
    simp only [List.cons_append, List.drop_zero] at h0
    rw [List.cons_append, dropAfterFirst, if_neg (by simp [h0])]
    exact ih fun i hi => by
      have := h (i + 1) (Nat.succ_lt_succ hi)
      simpa using this

theorem dropAfterFirst_eq_some {pat s rest : List Char}
    (h : dropAfterFirst pat s = some rest) : ∃ pre, s = pre ++ (pat ++ rest) := by
  induction s with
  | nil =>
    by_cases hp : startsWithB pat [] = true
    · cases pat with
      | nil =>
        simp [dropAfterFirst] at h
        exact ⟨[], by simp [← h]⟩
      | cons p ps => simp [startsWithB] at hp
    · simp [dropAfterFirst, hp] at h
  | cons c cs ih =>
    by_cases hp : startsWithB pat (c :: cs) = true
    · rw [dropAfterFirst_of_startsWithB hp] at h
      refine ⟨[], ?_⟩
      rw [List.nil_append]
      have hr : rest = (c :: cs).drop pat.length := by
        injection h with h'; exact h'.symm
      rw [hr]
      exact eq_append_drop_of_startsWithB hp
    · rw [dropAfterFirst, if_neg hp] at h
      obtain ⟨pre, hpre⟩ := ih h
      exact ⟨c :: pre, by rw [List.cons_append, hpre]⟩

theorem countOcc_le_append_left (pat x y : List Char) :
    countOcc pat y ≤ countOcc pat (x ++ y) := by
  induction x with
  | nil => simp
  | cons c cs ih =>
    rw [List.cons_append, countOcc]
    omega

theorem countOcc_le_append_right (pat m : List Char) (w : List Char)
    (hpat : pat ≠ []) : countOcc pat m ≤ countOcc pat (m ++ w) := by
  induction m with
  | nil =>
    cases pat with
    | nil => exact absurd rfl hpat
    | cons p ps => simp [countOcc, startsWithB]
  | cons c cs ih =>
    rw [List.cons_append, countOcc, countOcc]
    by_cases h : startsWithB pat (c :: cs) = true
    · rw [if_pos h, if_pos (by rw [← List.cons_append]; exact startsWithB_append_right w h)]
      omega
    · rw [if_neg h]
      omega

theorem one_add_le_countOcc_self_append (pat y : List Char) (hpat : pat ≠ []) :
    1 + countOcc pat y ≤ countOcc pat (pat ++ y) := by
  cases pat with
  | nil => exact absurd rfl hpat
  | cons p ps =>
    rw [List.cons_append, countOcc,
      if_pos (by rw [← List.cons_append]; exact startsWithB_self_append (p :: ps) y)]
    have := countOcc_le_append_left (p :: ps) ps y
    omega

theorem dropAfterFirst_eq_none_of_countOcc {pat t : List Char}
    (h : countOcc pat t = 0) : dropAfterFirst pat t = none := by
  induction t with
  | nil =>
    rw [countOcc] at h
    rw [dropAfterFirst]
    by_cases hp : startsWithB pat [] = true
    · rw [if_pos hp] at h; omega
    · rw [if_neg hp]
  | cons c cs ih =>
    rw [countOcc] at h
    by_cases hp : startsWithB pat (c :: cs) = true
    · rw [if_pos hp] at h; omega
    · rw [if_neg hp] at h
      rw [dropAfterFirst, if_neg hp]
      exact ih (by omega)

theorem stripChars_decomp (s : List Char) :
    s = s.takeWhile isSpaceChar ++ (stripChars s ++
      (((s.dropWhile isSpaceChar).reverse.takeWhile isSpaceChar).reverse)) := by
  conv_lhs => rw [← List.takeWhile_append_dropWhile isSpaceChar s]
  rw [List.append_right_inj]
  conv_lhs => rw [← List.reverse_reverse (s.dropWhile isSpaceChar),
    ← List.takeWhile_append_dropWhile isSpaceChar (s.dropWhile isSpaceChar).reverse]
  rw [List.reverse_append]
  rfl

theorem countOcc_mid_eq_zero {pat t u m w : List Char} (hpat : pat ≠ [])
    (ht : countOcc pat t = 0) (hdecomp : t = u ++ (m ++ w)) : countOcc pat m = 0 := by
  have h1 := countOcc_le_append_left pat u (m ++ w)
  have h2 := countOcc_le_append_right pat m w hpat
  rw [← hdecomp] at h1
  omega

theorem thinkClose_ne_nil : thinkClose ≠ [] := by decide

theorem thinkOpen_ne_nil : thinkOpen ≠ [] := by decide

/-! ## Claim theorems -/

/-- C1: for every input string containing the closing marker `"</thinking>"`
(written as `pre ++ thinkClose ++ post` with no occurrence of the marker
starting before position `pre.length`, so that the exhibited occurrence is
the first one), `extract_after_thinking` returns exactly the substring
strictly after that first occurrence, trimmed of leading and trailing
whitespace. -/
theorem extract_returns_tail_after_first_marker (pre post : List Char)
    (h : ∀ i < pre.length,
      startsWithB thinkClose ((pre ++ (thinkClose ++ post)).drop i) = false) :
    extract_after_thinking (pre ++ (thinkClose ++ post)) = stripChars post := by
  unfold extract_after_thinking
  rw [dropAfterFirst_of_first thinkClose pre post h]

/-- C1 witness: the theorem applied at `pre = "ab"`, `post = " hi "`. -/
theorem extract_returns_tail_after_first_marker_witness :
    extract_after_thinking ("ab".data ++ (thinkClose ++ " hi ".data))
      = stripChars " hi ".data :=
  extract_returns_tail_after_first_marker "ab".data " hi ".data (by decide)

/-- C2 counterexample: the spec's concrete raw text uses `"</think>"` tags,
not the `"</thinking>"` marker the code searches for, so
`extract_after_thinking` does not return `"Sure, that will be $2800."`. -/
theorem extract_think_input_counterexample :
    extract_after_thinking "<think>plan...</think>Sure, that will be $2800.".data
      ≠ "Sure, that will be $2800.".data := by decide

/-- C2 amended: the spec's raw text contains no occurrence of the closing
marker `"</thinking>"`, so the extractor returns it unmodified; on the
corresponding raw text written with the notebook's markers,
`"<thinking>plan...</thinking>Sure, that will be $2800."`, the visible
answer is exactly `"Sure, that will be $2800."`, with no surrounding
whitespace and no delimiter tags. -/
theorem extract_think_input_amended :
    extract_after_thinking "<think>plan...</think>Sure, that will be $2800.".data
        = "<think>plan...</think>Sure, that will be $2800.".data ∧
      extract_after_thinking
          "<thinking>plan...</thinking>Sure, that will be $2800.".data
        = "Sure, that will be $2800.".data := by decide

/-- C3: `calculate_total_cost` returns `350 * num_days` for every integer
`num_days`, and in particular returns `2800` at `num_days = 8`. -/
theorem calculate_total_cost_spec :
    (∀ num_days : Int, calculate_total_cost num_days = 350 * num_days) ∧
      calculate_total_cost 8 = 2800 :=
  ⟨fun _ => rfl, by decide⟩

/-- C4 counterexample: extraction is not idempotent; on
`"</thinking>x</thinking>y"` one application yields `"x</thinking>y"` while
a second application yields `"y"`. -/
theorem extract_not_idempotent_counterexample :
    extract_after_thinking (extract_after_thinking "</thinking>x</thinking>y".data)
      ≠ extract_after_thinking "</thinking>x</thinking>y".data := by decide

/-- C4 amended: for every input string in which the closing marker
`"</thinking>"` occurs at most once, applying `extract_after_thinking` twice
yields the same visible answer as applying it once. -/
theorem extract_idempotent_of_at_most_one_marker (s : List Char)
    (h : countOcc thinkClose s ≤ 1) :
    extract_after_thinking (extract_after_thinking s) = extract_after_thinking s := by
  cases hd : dropAfterFirst thinkClose s with
  | none => simp [extract_after_thinking, hd]
  | some rest =>
    obtain ⟨pre, hpre⟩ := dropAfterFirst_eq_some hd
    have hcount : countOcc thinkClose rest = 0 := by
      have h1 := countOcc_le_append_left thinkClose pre (thinkClose ++ rest)
      have h2 := one_add_le_countOcc_self_append thinkClose rest thinkClose_ne_nil
      rw [← hpre] at h1
      omega
    have hstrip : countOcc thinkClose (stripChars rest) = 0 :=
      countOcc_mid_eq_zero thinkClose_ne_nil hcount (stripChars_decomp rest)
    have hnone : dropAfterFirst thinkClose (stripChars rest) = none :=
      dropAfterFirst_eq_none_of_countOcc hstrip
    simp [extract_after_thinking, hd, hnone]

/-- C4 witness: the amended theorem applied at `"a</thinking> b "`, whose
closing marker occurs exactly once. -/
theorem extract_idempotent_witness :
    extract_after_thinking (extract_after_thinking "a</thinking> b ".data)
      = extract_after_thinking "a</thinking> b ".data :=
  extract_idempotent_of_at_most_one_marker "a</thinking> b ".data (by decide)

/-- C5 counterexample: the visible text can contain the hidden-reasoning
opener; on the raw text `"<thinking>x"` (no closing marker) the extractor
returns the text unmodified, opener included. -/
theorem visible_text_marker_counterexample :
    countOcc thinkOpen (extract_after_thinking "<thinking>x".data) ≠ 0 := by decide

/-- C5 amended: whenever the raw text contains the closing marker and
neither `"<thinking>"` nor `"</thinking>"` occurs strictly after its first
`"</thinking>"`, the visible text produced by the extractor contains
neither marker. -/
theorem visible_text_no_markers_of_clean_tail (s rest : List Char)
    (hd : dropAfterFirst thinkClose s = some rest)
    (hopen : countOcc thinkOpen rest = 0)
    (hclose : countOcc thinkClose rest = 0) :
    countOcc thinkOpen (extract_after_thinking s) = 0 ∧
      countOcc thinkClose (extract_after_thinking s) = 0 := by
  have hext : extract_after_thinking s = stripChars rest := by
    simp [extract_after_thinking, hd]
  rw [hext]
  exact ⟨countOcc_mid_eq_zero thinkOpen_ne_nil hopen (stripChars_decomp rest),
    countOcc_mid_eq_zero thinkClose_ne_nil hclose (stripChars_decomp rest)⟩

/-- C5 witness: the amended theorem applied at
`"<thinking>plan</thinking> ok "`. -/
theorem visible_text_no_markers_witness :
    countOcc thinkOpen (extract_after_thinking "<thinking>plan</thinking> ok ".data) = 0 ∧
      countOcc thinkClose (extract_after_thinking "<thinking>plan</thinking> ok ".data) = 0 :=
  visible_text_no_markers_of_clean_tail "<thinking>plan</thinking> ok ".data
    " ok ".data (by decide) (by decide) (by decide)

/-- C6: on every input string with no occurrence of the closing marker
`"</thinking>"`, `extract_after_thinking` returns the entire input
unmodified (not even whitespace-trimmed); the function is total, so no
error is raised. -/
theorem extract_no_marker_identity (s : List Char)
    (h : countOcc thinkClose s = 0) : extract_after_thinking s = s := by
  simp [extract_after_thinking, dropAfterFirst_eq_none_of_countOcc h]

/-- C6 witness: the theorem applied at `"  hello <think> world "` (note the
untouched surrounding whitespace). -/
theorem extract_no_marker_identity_witness :
    extract_after_thinking "  hello <think> world ".data
      = "  hello <think> world ".data :=
  extract_no_marker_identity "  hello <think> world ".data (by decide)

/-- C7 counterexample: a response whose `stopReason` is `"stop_sequence"`
(the stop-sequence truncation reported by the inference service) is not
handled like one whose `stopReason` is `"end_turn"`: the former matches
neither branch of the loop and produces no output, while the latter prints
the extracted answer. -/
theorem stop_sequence_differs_counterexample :
    handleEvent (some "stop_sequence".data) "x</thinking>y".data []
      ≠ handleEvent (some "end_turn".data) "x</thinking>y".data [] := by decide

/-- C7 amended: the loop only extracts and surfaces messages whose
`stopReason` is `"end_turn"` (or, with tool calls, `"tool_use"`); a
stop-sequence-truncated response (`stopReason = "stop_sequence"`) matches
neither branch and yields no visible output at all. -/
theorem stop_sequence_silent_end_turn_extracted :
    (∀ text toolCalls,
        handleEvent (some "stop_sequence".data) text toolCalls = LoopOutput.silent) ∧
      (∀ text toolCalls,
        handleEvent (some "end_turn".data) text toolCalls
          = LoopOutput.assistant (extract_after_thinking text)) := by
  exact ⟨fun text toolCalls => rfl, fun text toolCalls => rfl⟩

/-- C8: the notebook binds a non-empty tool set onto the model, and the
single static `ChatBedrockConverse` configuration used for every call sets
the greedy (most deterministic) decoding parameters documented for this
model family — `temperature = 1`, `top_p = 1` and the minimal top-count
`topK = 1` — and a non-empty stop-sequence set each of whose elements ends
with the hidden-reasoning-block opener `"<thinking>"`. -/
theorem greedy_decoding_and_stop_sequences :
    tools ≠ [] ∧
      llm.temperature = 1 ∧ llm.top_p = 1 ∧ llm.topK = 1 ∧
      llm.stopSequences ≠ [] ∧
      llm.stopSequences.all (fun s => endsWithB thinkOpen s) = true := by decide

/-- The orchestrator loop with everything below the guard consumed: when
every model response requests more tools, every fuel level ends in the
guard failure. -/
theorem runTurnAux_tool_loop (model : Nat → ModelStop)
    (h : ∀ k, isToolRequest (model k) = true) :
    ∀ fuel k, (runTurnAux model fuel k).terminal_reason
      = TerminalReason.maxToolIterationsExceeded := by
  intro fuel
  induction fuel with
  | zero => intro k; rfl
  | succ n ih =>
    intro k
    have hk := h k
    cases hm : model k with
    | answered text => simp [isToolRequest, hm] at hk
    | stoppedEarly text => simp [isToolRequest, hm] at hk
    | toolRequested calls =>
      simp only [runTurnAux, hm]
      exact ih (k + 1)

/-- C9: for every configured bound and every model that keeps requesting
further tool calls on every round-trip, the orchestrator terminates with
`terminal_reason = maxToolIterationsExceeded` (the `MaxToolIterationsExceeded`
failure) instead of looping forever; termination is structural in the
configured bound. -/
theorem max_tool_iterations_guard (maxIter : Nat) (model : Nat → ModelStop)
    (h : ∀ k, isToolRequest (model k) = true) :
    (runTurn maxIter model).terminal_reason
      = TerminalReason.maxToolIterationsExceeded :=
  runTurnAux_tool_loop model h maxIter 0

/-- C9 witness: the guard theorem applied with bound `5` and the model that
always requests another tool call. -/
theorem max_tool_iterations_guard_witness :
    (runTurn 5 (fun _ => ModelStop.toolRequested [])).terminal_reason
      = TerminalReason.maxToolIterationsExceeded :=
  max_tool_iterations_guard 5 (fun _ => ModelStop.toolRequested []) (fun _ => rfl)

/-- C10: for every three argument strings, `book_trip` succeeds (it is a
total function performing no validation of date format or ordering) and
returns a confirmation beginning with `"Confirmed:"` that contains all
three argument values verbatim. -/
theorem book_trip_spec (start_date end_date destination_city : List Char) :
    startsWithB "Confirmed:".data (book_trip start_date end_date destination_city) = true ∧
      (∃ u v, book_trip start_date end_date destination_city = u ++ start_date ++ v) ∧
      (∃ u v, book_trip start_date end_date destination_city = u ++ end_date ++ v) ∧
      (∃ u v, book_trip start_date end_date destination_city = u ++ destination_city ++ v) := by
  refine ⟨?_, ?_, ?_, ?_⟩
  · unfold book_trip
    apply startsWithB_append_right
    apply startsWithB_append_right
    apply startsWithB_append_right
    apply startsWithB_append_right
    apply startsWithB_append_right
    apply startsWithB_append_right
    decide
  · exact ⟨bookTripHeader,
      bookTripEndLabel ++ end_date ++ bookTripDestLabel ++ destination_city ++ bookTripTail,
      by simp [book_trip, List.append_assoc]⟩
  · exact ⟨bookTripHeader ++ start_date ++ bookTripEndLabel,
      bookTripDestLabel ++ destination_city ++ bookTripTail,
      by simp [book_trip, List.append_assoc]⟩
  · exact ⟨bookTripHeader ++ start_date ++ bookTripEndLabel ++ end_date ++ bookTripDestLabel,
      bookTripTail,
      by simp [book_trip, List.append_assoc]⟩

end Agents
